import Mathlib

/-!
Verification development for the EPS reconciliation pipeline of
src/stock_price_and_earnongs_and_pe_v3_server.py.

Dates are modelled as integer day numbers (pandas Timestamps ordered by day);
monetary values and per-share values as rationals.  A missing cell (NaN / NaT,
or a column absent for derived Q4 rows) is modelled as `none`.
-/

namespace AiAnalyst

/-- A row of the pooled quarterly table `combined` (native quarterly facts and
derived Q4 facts): columns end, val, days, filed.  Derived Q4 rows carry no
filed date, hence `filed : Option`. -/
structure Row where
  endD : ℤ
  val : ℚ
  days : ℤ
  filed : Option ℤ
deriving DecidableEq, Repr

/-- Ordering of the filed column used by `sort_values`: pandas places NaN last
(na_position default), so a missing filed date compares above every present
one. -/
def filedLE : Option ℤ → Option ℤ → Prop
  | _, none => True
  | none, some _ => False
  | some a, some b => a ≤ b

instance : DecidableRel filedLE := fun a b => by
  cases a <;> cases b <;> simp [filedLE] <;> infer_instance

theorem filedLE_refl (a : Option ℤ) : filedLE a a := by
  cases a <;> simp [filedLE]

theorem filedLE_trans {a b c : Option ℤ} (h1 : filedLE a b) (h2 : filedLE b c) :
    filedLE a c := by
  cases a <;> cases b <;> cases c <;> simp_all [filedLE] <;> omega

theorem filedLE_total (a b : Option ℤ) : filedLE a b ∨ filedLE b a := by
  cases a <;> cases b <;> simp [filedLE] <;> omega

theorem filedLE_none_left {a : Option ℤ} (h : filedLE none a) : a = none := by
  cases a <;> simp_all [filedLE]

/-- The lexicographic key of `combined.sort_values([end, filed])`. -/
def rowLE (a b : Row) : Prop :=
  a.endD < b.endD ∨ (a.endD = b.endD ∧ filedLE a.filed b.filed)

instance : DecidableRel rowLE := fun a b => by
  unfold rowLE; infer_instance

instance : IsTotal Row rowLE where
  total a b := by
    rcases lt_trichotomy a.endD b.endD with h | h | h
    · exact Or.inl (Or.inl h)
    · rcases filedLE_total a.filed b.filed with hf | hf
      · exact Or.inl (Or.inr ⟨h, hf⟩)
      · exact Or.inr (Or.inr ⟨h.symm, hf⟩)
    · exact Or.inr (Or.inl h)

instance : IsTrans Row rowLE where
  trans a b c hab hbc := by
    rcases hab with h1 | ⟨e1, f1⟩ <;> rcases hbc with h2 | ⟨e2, f2⟩
    · exact Or.inl (h1.trans h2)
    · exact Or.inl (e2 ▸ h1)
    · exact Or.inl (e1 ▸ h2)
    · exact Or.inr ⟨e1.trans e2, filedLE_trans f1 f2⟩

/-- `drop_duplicates(subset, keep=last)`: keep a row exactly when no later row
has the same end date, preserving order. -/
def dropDupKeepLast : List Row → List Row
  | [] => []
  | r :: rs =>
      if ∃ s ∈ rs, s.endD = r.endD then dropDupKeepLast rs
      else r :: dropDupKeepLast rs

/-- `combined.sort_values([end, filed]).drop_duplicates(end, keep=last)`. -/
def resolveDuplicates (pool : List Row) : List Row :=
  dropDupKeepLast (List.insertionSort rowLE pool)

theorem dropDupKeepLast_subset {o : Row} :
    ∀ {l : List Row}, o ∈ dropDupKeepLast l → o ∈ l
  | [], h => by simpa [dropDupKeepLast] using h
  | r :: rs, h => by
      by_cases hx : ∃ s ∈ rs, s.endD = r.endD
      · simp only [dropDupKeepLast, if_pos hx] at h
        exact List.mem_cons_of_mem _ (dropDupKeepLast_subset h)
      · simp only [dropDupKeepLast, if_neg hx] at h
        rcases List.mem_cons.mp h with h1 | h2
        · exact h1 ▸ List.mem_cons_self _ _
        · exact List.mem_cons_of_mem _ (dropDupKeepLast_subset h2)

theorem dropDupKeepLast_covers {r : Row} :
    ∀ {l : List Row}, r ∈ l → ∃ o ∈ dropDupKeepLast l, o.endD = r.endD
  | [], h => by simp at h
  | a :: rs, h => by
      by_cases hx : ∃ s ∈ rs, s.endD = a.endD
      · simp only [dropDupKeepLast, if_pos hx]
        rcases List.mem_cons.mp h with h | h
        · rcases hx with ⟨s, hs, he⟩
          rcases dropDupKeepLast_covers hs with ⟨o, ho, hoe⟩
          exact ⟨o, ho, by rw [hoe, he, h]⟩
        · exact dropDupKeepLast_covers h
      · simp only [dropDupKeepLast, if_neg hx]
        rcases List.mem_cons.mp h with h | h
        · exact ⟨a, List.mem_cons_self _ _, by rw [h]⟩
        · rcases dropDupKeepLast_covers h with ⟨o, ho, hoe⟩
          exact ⟨o, List.mem_cons_of_mem _ ho, hoe⟩

theorem dropDupKeepLast_strict :
    ∀ {l : List Row}, List.Pairwise rowLE l →
      List.Pairwise (fun a b => a.endD < b.endD) (dropDupKeepLast l)
  | [], _ => by simp [dropDupKeepLast]
  | r :: rs, hs => by
      rcases List.pairwise_cons.mp hs with ⟨hr, hrs⟩
      by_cases hx : ∃ s ∈ rs, s.endD = r.endD
      · simpa [dropDupKeepLast, if_pos hx] using dropDupKeepLast_strict hrs
      · simp only [dropDupKeepLast, if_neg hx]
        refine List.pairwise_cons.mpr ⟨?_, dropDupKeepLast_strict hrs⟩
        intro o ho
        have hom : o ∈ rs := dropDupKeepLast_subset ho
        have hne : o.endD ≠ r.endD := fun he => hx ⟨o, hom, he⟩
        rcases hr o hom with h | ⟨he, _⟩
        · exact h
        · exact absurd he.symm hne

theorem dropDupKeepLast_max {o r : Row} :
    ∀ {l : List Row}, List.Pairwise rowLE l → o ∈ dropDupKeepLast l →
      r ∈ l → r.endD = o.endD → filedLE r.filed o.filed
  | [], _, _, hr, _ => by simp at hr
  | a :: rs, hs, ho, hr, he => by
      rcases List.pairwise_cons.mp hs with ⟨ha, hrs⟩
      by_cases hx : ∃ s ∈ rs, s.endD = a.endD
      · simp only [dropDupKeepLast, if_pos hx] at ho
        rcases List.mem_cons.mp hr with hr | hr
        · subst hr
          have hom : o ∈ rs := dropDupKeepLast_subset ho
          rcases ha o hom with h | ⟨_, hf⟩
          · omega
          · exact hf
        · exact dropDupKeepLast_max hrs ho hr he
      · simp only [dropDupKeepLast, if_neg hx] at ho
        rcases List.mem_cons.mp ho with ho1 | ho2
        · rcases List.mem_cons.mp hr with hr1 | hr2
          · rw [hr1, ho1]; exact filedLE_refl _
          · exact absurd (ho1 ▸ he) (fun hc => hx ⟨r, hr2, hc⟩)
        · rcases List.mem_cons.mp hr with hr1 | hr2
          · exact (hx ⟨o, dropDupKeepLast_subset ho2, by rw [← he, hr1]⟩).elim
          · exact dropDupKeepLast_max hrs ho2 hr2 he

theorem resolveDuplicates_sorted (pool : List Row) :
    List.Pairwise (fun a b => a.endD < b.endD) (resolveDuplicates pool) :=
  dropDupKeepLast_strict (List.sorted_insertionSort rowLE pool)

theorem resolveDuplicates_subset {pool : List Row} {o : Row}
    (h : o ∈ resolveDuplicates pool) : o ∈ pool :=
  (List.mem_insertionSort rowLE).mp (dropDupKeepLast_subset h)

theorem resolveDuplicates_covers {pool : List Row} {r : Row} (h : r ∈ pool) :
    ∃ o ∈ resolveDuplicates pool, o.endD = r.endD :=
  dropDupKeepLast_covers ((List.mem_insertionSort rowLE).mpr h)

theorem resolveDuplicates_max {pool : List Row} {o : Row}
    (ho : o ∈ resolveDuplicates pool) {r : Row} (hr : r ∈ pool)
    (he : r.endD = o.endD) : filedLE r.filed o.filed :=
  dropDupKeepLast_max (List.sorted_insertionSort rowLE pool) ho
    ((List.mem_insertionSort rowLE).mpr hr) he

/-- A raw XBRL fact row: columns start (possibly missing), end, filed, val. -/
structure RawFact where
  startD : Option ℤ
  endD : ℤ
  filed : Option ℤ
  val : ℚ
deriving DecidableEq, Repr

/-- days = end minus start; none when start is missing (NaT), in which case
the row fails every duration filter, since NaN comparisons are False. -/
def factDays (f : RawFact) : Option ℤ := f.startD.map (fun s => f.endD - s)

/-- One duration bucket filter (lines 58 to 60): rows with lo < days < hi,
carried forward as pooled rows. -/
def classifyRows (lo hi : ℤ) (facts : List RawFact) : List Row :=
  facts.filterMap fun f =>
    match f.startD with
    | none => none
    | some s =>
        if lo < f.endD - s ∧ f.endD - s < hi then
          some ⟨f.endD, f.val, f.endD - s, f.filed⟩
        else none

def qtrRows (facts : List RawFact) : List Row := classifyRows 60 110 facts

def y9mRows (facts : List RawFact) : List Row := classifyRows 240 290 facts

def annRows (facts : List RawFact) : List Row := classifyRows 340 380 facts

/-- Matching window of the Q4 derivation: a nine month row whose end lies
within 12 days of the annual row end, both bounds inclusive. -/
def within12 (yr f : Row) : Prop :=
  yr.endD - 12 ≤ f.endD ∧ f.endD ≤ yr.endD + 12

instance (yr f : Row) : Decidable (within12 yr f) := by
  unfold within12; infer_instance

/-- Derived Q4 row for one annual row (lines 62 to 67): value annual minus
the first matching nine month row (match.iloc[0]), or annual over four when
no row matches; days fixed at 90; no filed date. -/
def deriveQ4 (y9m : List Row) (yr : Row) : Row :=
  match (y9m.filter (fun f => decide (within12 yr f))).head? with
  | some m => ⟨yr.endD, yr.val - m.val, 90, none⟩
  | none => ⟨yr.endD, yr.val / 4, 90, none⟩

/-- The pre resolution pool: native quarterly rows plus derived Q4 rows. -/
def pooledRows (facts : List RawFact) : List Row :=
  qtrRows facts ++ (annRows facts).map (deriveQ4 (y9mRows facts))

/-- First element minimizing f, mirroring Python min with a key function and
pandas idxmin, which both return the first minimizer. -/
def argminBy {α : Type} {β : Type} [LinearOrder β] (f : α → β) :
    List α → Option α
  | [] => none
  | a :: as =>
      match argminBy f as with
      | none => some a
      | some b => if f a ≤ f b then some a else some b

/-- Net income lookup of adjust_for_split (lines 78 to 87): exact end date
matches first, disambiguated by the duration closest to the record days (rows
with a missing start are skipped by idxmin, and an argmin over an empty or
all NaN column raises, caught as none); with no exact match, the fact whose
end date is nearest. -/
def niLookup (nis : List RawFact) (e days : ℤ) : Option ℚ :=
  let exact := nis.filter (fun n => decide (n.endD = e))
  if exact.isEmpty then
    (argminBy (fun n => |n.endD - e|) nis).map RawFact.val
  else
    (argminBy (fun p => |p.2 - days|)
        (exact.filterMap (fun n => (factDays n).map (fun d => (n, d))))).map
      (fun p => p.1.val)

def commonSplits : List ℚ := [1, 2, 4, 7, 10, 20, 28, 40, 50, 100]

/-- min(common_splits, key=lambda x: abs(x - r)): the canonical factor
nearest to r, first on ties. -/
def bestSplit (r : ℚ) : ℚ :=
  (argminBy (fun x => |x - r|) commonSplits).getD 1

/-- adjust_for_split (lines 76 to 102): divide the value by the snapped split
factor; the try/except returns the original value when the lookup raises
(modelled by none), when the value is zero (implied shares divides by zero),
or when the net income value is zero (the ratio divides by zero). -/
def adjustForSplit (nis : List RawFact) (latest : ℚ) (row : Row) : ℚ :=
  match niLookup nis row.endD row.days with
  | none => row.val
  | some niVal =>
      if row.val = 0 then row.val
      else if niVal = 0 then row.val
      else row.val / bestSplit (latest / (niVal / row.val))

/-- A raw share count row: columns end and val. -/
structure ShareRec where
  endD : ℤ
  val : ℚ
deriving DecidableEq, Repr

/-- Last element maximizing f: sort_values(end).iloc[-1] keeps, among rows
holding the maximal end date, the one the sort placed last. -/
def argmaxLastBy {α : Type} (f : α → ℤ) : List α → Option α
  | [] => none
  | a :: as =>
      match argmaxLastBy f as with
      | none => some a
      | some b => if f a ≤ f b then some b else some a

/-- The share tag loop (lines 44 to 49): for each tag, the dei array when
nonempty, else the us-gaap array; the first tag whose pick is nonempty
supplies latest_shares and breaks the loop. -/
def pickTag (p : List ShareRec × List ShareRec) : List ShareRec :=
  if p.1.isEmpty then p.2 else p.1

def latestShares (tags : List (List ShareRec × List ShareRec)) : Option ℚ :=
  match (tags.map pickTag).find? (fun s => !s.isEmpty) with
  | none => none
  | some s => (argmaxLastBy ShareRec.endD s).map ShareRec.val

/-- The raw inputs the SEC provider hands the reconciliation: diluted EPS
facts, net income facts, and the share count arrays per tag namespace. -/
structure RawFacts where
  epsRaw : List RawFact
  niRaw : List RawFact
  shareTags : List (List ShareRec × List ShareRec)

/-- The reconciliation pipeline applied once every presence check passed:
pool, resolve duplicates, split adjust each surviving row, and key the
output frame by the end date (already ascending). -/
def processFacts (d : RawFacts) (latest : ℚ) : List (ℤ × ℚ) :=
  (resolveDuplicates (pooledRows d.epsRaw)).map
    (fun r => (r.endD, adjustForSplit d.niRaw latest r))

/-- get_sec_eps_final: the whole body sits in a try/except returning an empty
frame, modelled by the error case; absent EPS facts, absent net income facts,
or no usable share count source also yield an empty frame, and a zero share
count is rejected by the falsiness test on latest_shares. -/
def getSecEpsFinal (inp : Except Unit RawFacts) : List (ℤ × ℚ) :=
  match inp with
  | .error _ => []
  | .ok d =>
      if d.epsRaw.isEmpty then []
      else if d.niRaw.isEmpty then []
      else
        match latestShares d.shareTags with
        | none => []
        | some v => if v = 0 then [] else processFacts d v

/-- rolling(window=4).sum() over the value column (line 141): the buffer
holds the previous values, most recent first, capped at three; a sum is
emitted only once three previous values exist, because min_periods defaults
to the window size, so the first three outputs are missing. -/
def rolling4Aux : List ℚ → List ℚ → List (Option ℚ)
  | _, [] => []
  | buf, v :: rest =>
      (if buf.length = 3 then some ((v :: buf).sum) else none)
        :: rolling4Aux ((v :: buf).take 3) rest

/-- The TTM EPS column: record dates paired with the 4 record rolling sum. -/
def ttmSeries (xs : List (ℤ × ℚ)) : List (ℤ × Option ℚ) :=
  List.zip (xs.map Prod.fst) (rolling4Aux [] (xs.map Prod.snd))

/-- Modelled from the spec wording, for comparison with ttmSeries: a 365 day
time window ending at each record date, minimum window population one. -/
def ttmSpec365 (xs : List (ℤ × ℚ)) : List (ℤ × ℚ) :=
  xs.map fun p =>
    (p.1, ((xs.filter (fun q => decide (p.1 - 365 ≤ q.1 ∧ q.1 ≤ p.1))).map
      Prod.snd).sum)

/-- One surviving row of pe_df after dropna. -/
structure AlignedRow where
  date : ℤ
  close : ℚ
  ttm : ℚ
  peVal : ℚ
deriving DecidableEq, Repr

/-- reindex(method=ffill) against a sorted unique EPS index (line 147): the
last TTM entry dated at or before d, none when every entry is later. -/
def ffillLookup (eps : List (ℤ × Option ℚ)) (d : ℤ) : Option (ℤ × Option ℚ) :=
  (eps.filter (fun e => decide (e.1 ≤ d))).getLast?

/-- Close over mapped TTM with inf and NaN rows dropped (lines 146 to 152):
a price row survives exactly when a TTM entry exists at or before its date,
that entry holds a value, and the value is nonzero. -/
def alignPE (prices : List (ℤ × ℚ)) (eps : List (ℤ × Option ℚ)) :
    List AlignedRow :=
  prices.filterMap fun p =>
    match ffillLookup eps p.1 with
    | some (_, some t) => if t = 0 then none else some ⟨p.1, p.2, t, p.2 / t⟩
    | _ => none

/-- The P/E axis bound selection (lines 180 to 191): clamp the 98th
percentile above by 600 and the 2nd percentile below by minus 100, raise
maxlim to minlim when the pair is inverted, and start the axis at zero when
both limits are positive. -/
def displayBounds (q02 q98 : ℚ) : ℚ × ℚ :=
  let maxlim := min q98 600
  let minlim := max q02 (-100)
  let maxlim2 := max maxlim minlim
  let minlim2 := min maxlim2 minlim
  if 0 < maxlim2 ∧ 0 < minlim2 then (0, maxlim2) else (minlim2, maxlim2)

theorem argminBy_eq_none {α β : Type} [LinearOrder β] {f : α → β} :
    ∀ {l : List α}, argminBy f l = none → l = []
  | [], _ => rfl
  | a :: as, h => by
      simp only [argminBy] at h
      cases hb : argminBy f as with
      | none => rw [hb] at h; dsimp only at h; exact absurd h (by simp)
      | some b =>
          rw [hb] at h; dsimp only at h
          by_cases hle : f a ≤ f b <;> simp [hle] at h

theorem argminBy_mem {α β : Type} [LinearOrder β] {f : α → β} :
    ∀ {l : List α} {m : α}, argminBy f l = some m → m ∈ l
  | [], _, h => by simp [argminBy] at h
  | a :: as, m, h => by
      simp only [argminBy] at h
      cases hb : argminBy f as with
      | none =>
          rw [hb] at h; dsimp only at h
          exact (Option.some.inj h) ▸ List.mem_cons_self _ _
      | some b =>
          rw [hb] at h; dsimp only at h
          by_cases hle : f a ≤ f b
          · rw [if_pos hle] at h
            exact (Option.some.inj h) ▸ List.mem_cons_self _ _
          · rw [if_neg hle] at h
            exact List.mem_cons_of_mem _
              ((Option.some.inj h) ▸ argminBy_mem hb)

theorem argminBy_min {α β : Type} [LinearOrder β] {f : α → β} :
    ∀ {l : List α} {m : α}, argminBy f l = some m → ∀ x ∈ l, f m ≤ f x
  | [], _, h => by simp [argminBy] at h
  | a :: as, m, h => by
      intro x hx
      simp only [argminBy] at h
      cases hb : argminBy f as with
      | none =>
          rw [hb] at h; dsimp only at h
          have : as = [] := argminBy_eq_none hb
          subst this
          rcases List.mem_cons.mp hx with hx1 | hx2
          · rw [← Option.some.inj h, hx1]
          · simp at hx2
      | some b =>
          rw [hb] at h; dsimp only at h
          by_cases hle : f a ≤ f b
          · rw [if_pos hle] at h
            rw [← Option.some.inj h]
            rcases List.mem_cons.mp hx with hx1 | hx2
            · rw [hx1]
            · exact le_trans hle (argminBy_min hb x hx2)
          · rw [if_neg hle] at h
            rw [← Option.some.inj h]
            rcases List.mem_cons.mp hx with hx1 | hx2
            · rw [hx1]; exact le_of_lt (lt_of_not_le hle)
            · exact argminBy_min hb x hx2

theorem getLast?_max {α : Type} {r : α → α → Prop} :
    ∀ {l : List α}, List.Pairwise r l → ∀ {a : α}, l.getLast? = some a →
      ∀ x ∈ l, x = a ∨ r x a
  | [], _, _, h, _, _ => by simp at h
  | [b], _, a, h, x, hx => by
      simp only [List.getLast?_singleton] at h
      rcases List.mem_singleton.mp hx with hx1
      exact Or.inl (hx1.trans (Option.some.inj h))
  | b :: c :: t, hp, a, h, x, hx => by
      rw [List.getLast?_cons_cons] at h
      rcases List.pairwise_cons.mp hp with ⟨hb, hct⟩
      rcases List.mem_cons.mp hx with hx1 | hx2
      · exact Or.inr (hx1 ▸ hb a (List.mem_of_getLast?_eq_some h))
      · exact getLast?_max hct h x hx2

theorem ffillLookup_mem {eps : List (ℤ × Option ℚ)} {d : ℤ}
    {e : ℤ × Option ℚ} (h : ffillLookup eps d = some e) :
    e ∈ eps ∧ e.1 ≤ d := by
  have hm : e ∈ eps.filter (fun q => decide (q.1 ≤ d)) :=
    List.mem_of_getLast?_eq_some h
  rcases List.mem_filter.mp hm with ⟨h1, h2⟩
  exact ⟨h1, of_decide_eq_true h2⟩

theorem ffillLookup_latest {eps : List (ℤ × Option ℚ)}
    (hs : List.Pairwise (fun a b => a.1 < b.1) eps) {d : ℤ}
    {e : ℤ × Option ℚ} (h : ffillLookup eps d = some e) :
    ∀ q ∈ eps, q.1 ≤ d → q.1 ≤ e.1 := by
  intro q hq hqd
  have hqf : q ∈ eps.filter (fun x => decide (x.1 ≤ d)) :=
    List.mem_filter.mpr ⟨hq, decide_eq_true hqd⟩
  have hpf : List.Pairwise (fun a b => a.1 < b.1)
      (eps.filter (fun x => decide (x.1 ≤ d))) :=
    List.Pairwise.sublist (List.filter_sublist _) hs
  rcases getLast?_max hpf h q hqf with h1 | h2
  · exact le_of_eq (congrArg Prod.fst h1)
  · exact le_of_lt h2

theorem ffillLookup_none {eps : List (ℤ × Option ℚ)} {d : ℤ}
    (h : ∀ q ∈ eps, d < q.1) : ffillLookup eps d = none := by
  unfold ffillLookup
  have : eps.filter (fun q => decide (q.1 ≤ d)) = [] := by
    rw [List.filter_eq_nil_iff]
    intro q hq
    simpa using not_le_of_lt (h q hq)
  rw [this]
  rfl

theorem rolling4Aux_length :
    ∀ (buf ys : List ℚ), (rolling4Aux buf ys).length = ys.length
  | _, [] => rfl
  | buf, v :: rest => by
      simp [rolling4Aux, rolling4Aux_length]

theorem rolling4Aux_warmup :
    ∀ (ys buf : List ℚ) (i : ℕ), i < ys.length → buf.length + i < 3 →
      (rolling4Aux buf ys)[i]? = some none
  | [], _, i, hi, _ => by simp at hi
  | v :: rest, buf, 0, _, h => by
      have : ¬ buf.length = 3 := by omega
      simp [rolling4Aux, this]
  | v :: rest, buf, i + 1, hi, h => by
      have hlen : ((v :: buf).take 3).length = buf.length + 1 := by
        simp only [List.length_take, List.length_cons]
        omega
      have := rolling4Aux_warmup rest ((v :: buf).take 3) i
        (by simpa using Nat.lt_of_succ_lt_succ hi) (by omega)
      simpa [rolling4Aux] using this

theorem rolling4Aux_window :
    ∀ (ys buf : List ℚ) (i : ℕ), i < ys.length → buf.length ≤ 3 →
      3 ≤ buf.length + i →
      (rolling4Aux buf ys)[i]? =
        some (some
          (((buf.reverse ++ ys.take (i + 1)).drop (buf.length + i - 3)).sum))
  | [], _, i, hi, _, _ => by simp at hi
  | v :: rest, buf, 0, _, hb3, h3 => by
      rcases buf with _ | ⟨a, _ | ⟨b, _ | ⟨c, _ | ⟨e, t⟩⟩⟩⟩
      · simp at h3
      · simp at h3
      · simp at h3
      · simp [rolling4Aux]
        ring
      · simp at hb3
  | v :: rest, buf, i + 1, hi, hb3, h3 => by
      have hi2 : i < rest.length := by simpa using Nat.lt_of_succ_lt_succ hi
      rcases buf with _ | ⟨a, _ | ⟨b, _ | ⟨c, _ | ⟨e, t⟩⟩⟩⟩
      all_goals simp only [List.length_nil, List.length_cons] at h3
      · have := rolling4Aux_window rest [v] i hi2 (by simp) (by simp; omega)
        have hidx : 1 + i - 3 = 0 + (i + 1) - 3 := by omega
        simpa [rolling4Aux, hidx] using this
      · have := rolling4Aux_window rest [v, a] i hi2 (by simp) (by simp; omega)
        have hidx : 2 + i - 3 = 1 + (i + 1) - 3 := by omega
        simpa [rolling4Aux, hidx] using this
      · have := rolling4Aux_window rest [v, a, b] i hi2 (by simp) (by simp)
        have hidx : 3 + i - 3 = i := by omega
        have hidx2 : 2 + (i + 1) - 3 = i := by omega
        simpa [rolling4Aux, hidx, hidx2] using this
      · have := rolling4Aux_window rest [v, a, b] i hi2 (by simp) (by simp)
        have hidx : 3 + i - 3 = i := by omega
        have hidx2 : 3 + (i + 1) - 3 = i + 1 := by omega
        simpa [rolling4Aux, hidx, hidx2] using this
      · simp at hb3

theorem latestShares_none {tags : List (List ShareRec × List ShareRec)}
    (h : ∀ t ∈ tags, t.1 = [] ∧ t.2 = []) : latestShares tags = none := by
  unfold latestShares
  have hfind : (tags.map pickTag).find? (fun s => !s.isEmpty) = none := by
    rw [List.find?_eq_none]
    intro x hx
    rcases List.mem_map.mp hx with ⟨t, ht, hpt⟩
    rcases h t ht with ⟨h1, h2⟩
    have : pickTag t = [] := by
      unfold pickTag
      rw [h1, h2]
      simp
    rw [← hpt, this]
    simp
  rw [hfind]

/-- Claim C4: duplicate resolution keeps exactly one row per end date, the
row last in the (end, filed) ascending order, so no candidate for the same
end date was filed later, and the output end dates are unique and strictly
ascending. -/
theorem resolver_unique_latest_invariant (pool : List Row) :
    List.Pairwise (fun a b => a.endD < b.endD) (resolveDuplicates pool) ∧
    (∀ o ∈ resolveDuplicates pool, o ∈ pool) ∧
    (∀ r ∈ pool, ∃ o ∈ resolveDuplicates pool, o.endD = r.endD) ∧
    (∀ o ∈ resolveDuplicates pool, ∀ r ∈ pool, r.endD = o.endD →
      filedLE r.filed o.filed) :=
  ⟨resolveDuplicates_sorted pool,
   fun _ ho => resolveDuplicates_subset ho,
   fun _ hr => resolveDuplicates_covers hr,
   fun _ ho _ hr he => resolveDuplicates_max ho hr he⟩

theorem resolver_unique_latest_witness :
    (∃ o ∈ resolveDuplicates
        [⟨1, 2, 90, some 5⟩, ⟨1, 3, 90, some 7⟩, ⟨2, 4, 90, none⟩],
      o.endD = 1) ∧
    filedLE (some 5) (some 7) :=
  ⟨(resolver_unique_latest_invariant _).2.2.1 ⟨1, 2, 90, some 5⟩ (by simp),
   (resolver_unique_latest_invariant
      [⟨1, 2, 90, some 5⟩, ⟨1, 3, 90, some 7⟩, ⟨2, 4, 90, none⟩]).2.2.2
     ⟨1, 3, 90, some 7⟩ (by decide) ⟨1, 2, 90, some 5⟩ (by simp) rfl⟩

/-- Claim C9: derived Q4 rows carry no filed date, and a missing filed date
sorts after every present one inside its end date group, so at an end date
holding both a native quarterly fact and a derived Q4 fact the resolver
keeps the derived fact. -/
theorem resolver_prefers_derived_q4 (y9m : List Row) (yr : Row)
    (pool : List Row) (d : ℤ)
    (hder : ∃ r ∈ pool, r.endD = d ∧ r.filed = none)
    (hnat : ∃ r ∈ pool, r.endD = d ∧ r.filed ≠ none) :
    (deriveQ4 y9m yr).filed = none ∧
    ∀ o ∈ resolveDuplicates pool, o.endD = d → o.filed = none := by
  refine ⟨?_, ?_⟩
  · unfold deriveQ4
    cases (y9m.filter (fun f => decide (within12 yr f))).head? <;> rfl
  · intro o ho hoe
    rcases hder with ⟨r, hr, hre, hrf⟩
    have hmax := resolveDuplicates_max ho hr (by rw [hre, hoe])
    rw [hrf] at hmax
    exact filedLE_none_left hmax

theorem resolver_prefers_derived_q4_witness :
    (deriveQ4 [] ⟨400, 4, 365, some 9⟩).filed = none ∧
    ∀ o ∈ resolveDuplicates [⟨1, 2, 90, some 5⟩, ⟨1, 3, 90, none⟩],
      o.endD = 1 → o.filed = none :=
  resolver_prefers_derived_q4 [] ⟨400, 4, 365, some 9⟩
    [⟨1, 2, 90, some 5⟩, ⟨1, 3, 90, none⟩] 1
    ⟨⟨1, 3, 90, none⟩, by simp, rfl, rfl⟩
    ⟨⟨1, 2, 90, some 5⟩, by simp, rfl, by simp⟩

/-- Claim C3: for an annual row, when some nine month row ends within 12
days (inclusive) of the annual end the derived Q4 value is the annual value
minus that nine month value, with days 90 and the annual end date; with no
such row the value is the annual value divided by four. -/
theorem q4_derivation (y9m : List Row) (yr : Row) :
    (deriveQ4 y9m yr).endD = yr.endD ∧ (deriveQ4 y9m yr).days = 90 ∧
    ((∃ f ∈ y9m, within12 yr f) →
      ∃ f ∈ y9m, within12 yr f ∧ (deriveQ4 y9m yr).val = yr.val - f.val) ∧
    ((∀ f ∈ y9m, ¬ within12 yr f) → (deriveQ4 y9m yr).val = yr.val / 4) := by
  unfold deriveQ4
  cases hh : (y9m.filter (fun f => decide (within12 yr f))).head? with
  | some m =>
      have hm : m ∈ y9m.filter (fun f => decide (within12 yr f)) :=
        List.mem_of_mem_head? hh
      rcases List.mem_filter.mp hm with ⟨hm1, hm2⟩
      refine ⟨rfl, rfl, fun _ => ⟨m, hm1, of_decide_eq_true hm2, rfl⟩, ?_⟩
      intro hnone
      exact absurd (of_decide_eq_true hm2) (hnone m hm1)
  | none =>
      rw [List.head?_eq_none_iff] at hh
      refine ⟨rfl, rfl, ?_, fun _ => rfl⟩
      intro ⟨f, hf, hw⟩
      have : f ∈ y9m.filter (fun f => decide (within12 yr f)) :=
        List.mem_filter.mpr ⟨hf, decide_eq_true hw⟩
      rw [hh] at this
      simp at this

theorem q4_derivation_witness :
    (∃ f ∈ [Row.mk 360 (31/10) 270 (some 1)],
      within12 ⟨365, 4, 365, some 2⟩ f ∧
      (deriveQ4 [Row.mk 360 (31/10) 270 (some 1)]
        ⟨365, 4, 365, some 2⟩).val = 4 - f.val) ∧
    (deriveQ4 [] ⟨365, 4, 365, some 2⟩).val = 4 / 4 :=
  ⟨(q4_derivation _ _).2.2.1
      ⟨⟨360, 31/10, 270, some 1⟩, by simp, by norm_num [within12]⟩,
   (q4_derivation [] ⟨365, 4, 365, some 2⟩).2.2.2 (by simp)⟩

/-- Claim C5: for a resolved record whose net income lookup succeeds with a
nonzero value and whose EPS value is nonzero, the adjusted EPS is the
original divided by the canonical split factor nearest (by absolute
difference) to latest shares over implied shares then; ratio 1.97 snaps to
2, 19.4 to 20, 1.02 to 1. -/
theorem split_adjustment (nis : List RawFact) (latest : ℚ) (row : Row)
    (niVal : ℚ) (hl : niLookup nis row.endD row.days = some niVal)
    (hv : row.val ≠ 0) (hn : niVal ≠ 0) :
    (∃ s ∈ commonSplits,
      (∀ x ∈ commonSplits,
        |s - latest / (niVal / row.val)| ≤ |x - latest / (niVal / row.val)|) ∧
      adjustForSplit nis latest row = row.val / s) ∧
    bestSplit (197/100) = 2 ∧ bestSplit (97/5) = 20 ∧
    bestSplit (51/50) = 1 := by
  refine ⟨?_, by norm_num [bestSplit, argminBy, commonSplits, abs],
    by norm_num [bestSplit, argminBy, commonSplits, abs],
    by norm_num [bestSplit, argminBy, commonSplits, abs]⟩
  cases hb : argminBy (fun x => |x - latest / (niVal / row.val)|) commonSplits
    with
  | none =>
      have := argminBy_eq_none hb
      simp [commonSplits] at this
  | some s =>
      refine ⟨s, argminBy_mem hb, fun x hx => argminBy_min hb x hx, ?_⟩
      unfold adjustForSplit
      rw [hl]
      dsimp only
      rw [if_neg hv, if_neg hn]
      unfold bestSplit
      rw [hb]
      rfl

theorem split_adjustment_witness :
    ∃ s ∈ commonSplits,
      (∀ x ∈ commonSplits,
        |s - (397/100 : ℚ) / (2 / 1)| ≤ |x - (397/100 : ℚ) / (2 / 1)|) ∧
      adjustForSplit [⟨some 275, 365, none, 2⟩] (397/100)
        ⟨365, 1, 90, some 1⟩ = 1 / s :=
  (split_adjustment [⟨some 275, 365, none, 2⟩] (397/100) ⟨365, 1, 90, some 1⟩
    2 (by rfl) (by norm_num) (by norm_num)).1

/-- Claim C6: when the EPS value is zero or a lookup needed for split
adjustment fails (no usable net income row, or a zero net income value that
makes the ratio division raise), the record keeps its original value, and
the adjustment is applied record by record, so one record never alters
another. -/
theorem split_adjustment_degrades (nis : List RawFact) (latest : ℚ) :
    (∀ row : Row,
      row.val = 0 ∨ niLookup nis row.endD row.days = none ∨
        niLookup nis row.endD row.days = some 0 →
      adjustForSplit nis latest row = row.val) ∧
    (∀ rows : List Row, ∀ i : ℕ,
      (rows.map (fun r => (r.endD, adjustForSplit nis latest r)))[i]? =
        (rows[i]?).map (fun r => (r.endD, adjustForSplit nis latest r))) := by
  constructor
  · intro row h
    unfold adjustForSplit
    rcases h with h | h | h
    · cases hl : niLookup nis row.endD row.days with
      | none => rfl
      | some v => dsimp only; rw [if_pos h]
    · rw [h]
    · rw [h]
      dsimp only
      rcases eq_or_ne row.val 0 with hv | hv
      · rw [if_pos hv]
      · rw [if_neg hv, if_pos rfl]
  · intro rows i
    exact List.getElem?_map _ rows i

theorem split_adjustment_degrades_witness :
    adjustForSplit [] 3 ⟨5, 7, 90, none⟩ = 7 :=
  (split_adjustment_degrades [] 3).1 ⟨5, 7, 90, none⟩
    (Or.inr (Or.inl (by rfl)))

theorem alignPE_mem {prices : List (ℤ × ℚ)} {eps : List (ℤ × Option ℚ)}
    {a : AlignedRow} (h : a ∈ alignPE prices eps) :
    ∃ p ∈ prices, p.1 = a.date ∧ p.2 = a.close ∧ a.ttm ≠ 0 ∧
      a.peVal = a.close / a.ttm ∧
      ∃ d0, ffillLookup eps p.1 = some (d0, some a.ttm) := by
  rcases List.mem_filterMap.mp h with ⟨p, hp, hfp⟩
  cases hf : ffillLookup eps p.1 with
  | none => rw [hf] at hfp; simp at hfp
  | some e =>
      rw [hf] at hfp
      obtain ⟨d0, w⟩ := e
      cases w with
      | none => simp at hfp
      | some t =>
          dsimp only at hfp
          by_cases ht : t = 0
          · rw [if_pos ht] at hfp; simp at hfp
          · rw [if_neg ht] at hfp
            have ha : AlignedRow.mk p.1 p.2 t (p.2 / t) = a :=
              Option.some.inj hfp
            subst ha
            exact ⟨p, hp, rfl, rfl, ht, rfl, d0, hf⟩

/-- Claim C7: every surviving aligned entry carries the most recent TTM
value dated at or before its price date, its P/E equals close over that TTM
value, price dates earlier than every TTM date get no entry, and a date
whose forward filled TTM value is missing or zero is dropped rather than
given a sentinel. -/
theorem price_eps_alignment (prices : List (ℤ × ℚ))
    (eps : List (ℤ × Option ℚ))
    (hs : List.Pairwise (fun a b => a.1 < b.1) eps) :
    (∀ a ∈ alignPE prices eps,
      a.ttm ≠ 0 ∧ a.peVal = a.close / a.ttm ∧
      ∃ e ∈ eps, e.1 ≤ a.date ∧ e.2 = some a.ttm ∧
        ∀ q ∈ eps, q.1 ≤ a.date → q.1 ≤ e.1) ∧
    (∀ p ∈ prices, (∀ q ∈ eps, p.1 < q.1) →
      ∀ a ∈ alignPE prices eps, a.date ≠ p.1) ∧
    (∀ p ∈ prices,
      (ffillLookup eps p.1 = none ∨
        ∃ e, ffillLookup eps p.1 = some e ∧ (e.2 = none ∨ e.2 = some 0)) →
      ∀ a ∈ alignPE prices eps, a.date ≠ p.1) := by
  refine ⟨?_, ?_, ?_⟩
  · intro a ha
    rcases alignPE_mem ha with ⟨p, hp, hpd, hpc, ht, hpe, d0, hf⟩
    rcases ffillLookup_mem hf with ⟨hmem, hle⟩
    refine ⟨ht, hpe, ⟨d0, some a.ttm⟩, hmem, hpd ▸ hle, rfl, ?_⟩
    intro q hq hqd
    exact ffillLookup_latest hs hf q hq (hpd ▸ hqd)
  · intro p hp hall a ha heq
    rcases alignPE_mem ha with ⟨p2, hp2, hpd, _, _, _, d0, hf⟩
    rcases ffillLookup_mem hf with ⟨hmem, hle⟩
    have : p.1 < d0 := hall _ hmem
    omega
  · intro p hp hbad a ha heq
    rcases alignPE_mem ha with ⟨p2, hp2, hpd, _, ht, _, d0, hf⟩
    have hff : ffillLookup eps p.1 = some (d0, some a.ttm) := by
      rw [← heq, ← hpd]
      exact hf
    rcases hbad with hb | ⟨e, he, hv⟩
    · rw [hb] at hff; exact absurd hff (by simp)
    · rw [he] at hff
      have hev : e = (d0, some a.ttm) := Option.some.inj hff
      rcases hv with hv | hv
      · rw [hev] at hv; simp at hv
      · rw [hev] at hv
        exact ht (Option.some.inj hv)

theorem price_eps_alignment_witness :
    (2:ℚ) ≠ 0 ∧ (8:ℚ) / 2 = 8 / 2 ∧
    (∃ e ∈ [((10:ℤ), some (2:ℚ))], e.1 ≤ (15:ℤ) ∧ e.2 = some (2:ℚ) ∧
      ∀ q ∈ [((10:ℤ), some (2:ℚ))], q.1 ≤ (15:ℤ) → q.1 ≤ e.1) :=
  (price_eps_alignment [((15:ℤ), (8:ℚ))] [((10:ℤ), some (2:ℚ))] (by simp)).1
    ⟨15, 8, 2, 8 / 2⟩ (by simp [alignPE, ffillLookup])

/-- Claim C8: the reconciliation returns an empty result when the diluted
EPS facts are absent, when the net income facts are absent, or when every
share count source is empty, and a provider level exception (the error
case) is caught and converted into an empty result. -/
theorem normalization_failure_empty :
    (∀ e : Unit, getSecEpsFinal (Except.error e) = []) ∧
    (∀ d : RawFacts,
      d.epsRaw = [] ∨ d.niRaw = [] ∨
        (∀ t ∈ d.shareTags, t.1 = [] ∧ t.2 = []) →
      getSecEpsFinal (Except.ok d) = []) := by
  refine ⟨fun _ => rfl, ?_⟩
  intro d h
  rcases h with h | h | h
  · simp [getSecEpsFinal, h]
  · simp [getSecEpsFinal, h]
  · simp [getSecEpsFinal, latestShares_none h]

theorem normalization_failure_empty_witness :
    getSecEpsFinal (Except.error ()) = [] ∧
    getSecEpsFinal (Except.ok ⟨[], [⟨none, 0, none, 1⟩], []⟩) = [] :=
  ⟨normalization_failure_empty.1 (),
   normalization_failure_empty.2 ⟨[], [⟨none, 0, none, 1⟩], []⟩ (Or.inl rfl)⟩

/-- Claim C10: when the most recently ended share count fact found in the
tag namespaces has value zero, the falsiness test treats the share count as
absent and the reconciliation returns an empty result, even though EPS,
net income, and share count facts are all present. -/
theorem zero_share_count_empty (d : RawFacts) (h1 : d.epsRaw ≠ [])
    (h2 : d.niRaw ≠ []) (h3 : latestShares d.shareTags = some 0) :
    getSecEpsFinal (Except.ok d) = [] := by
  by_cases hA : d.epsRaw.isEmpty
  · simp [getSecEpsFinal, hA]
  · by_cases hB : d.niRaw.isEmpty
    · simp [getSecEpsFinal, hA, hB]
    · simp [getSecEpsFinal, hA, hB, h3]

theorem zero_share_count_empty_witness :
    getSecEpsFinal (Except.ok ⟨[⟨some 0, 90, some 1, 1⟩],
      [⟨some 0, 90, some 1, 5⟩], [([⟨100, 0⟩], [])]⟩) = [] :=
  zero_share_count_empty _ (by simp) (by simp) (by rfl)

/-- Claim C2 counterexample: percentile bounds (700, 750) produce the axis
(0, 700), not (600, 600): the correction step raises the upper limit to the
clamped lower limit instead of swapping the pair, and the positive branch
then zeroes the lower limit. -/
theorem display_bounds_cex :
    displayBounds 700 750 = (0, 700) ∧
    ¬ displayBounds 700 750 = (600, 600) := by
  constructor
  · norm_num [displayBounds, min_def, max_def]
  · norm_num [displayBounds, min_def, max_def]

/-- Claim C2 amended: write ub = min(q98, 600) and lb = max(q02, -100).
When lb ≤ ub the axis is (0, ub) if both are positive and (lb, ub)
otherwise; when the clamped pair is inverted (ub < lb) both limits become
lb rather than being swapped, giving (0, lb) if lb is positive and (lb, lb)
otherwise; bounds (5, 40) give (0, 40), (-20, 30) stays (-20, 30), and
(700, 750) gives (0, 700). -/
theorem display_bounds_amended (q02 q98 : ℚ) :
    (max q02 (-100) ≤ min q98 600 →
      displayBounds q02 q98 =
        if 0 < min q98 600 ∧ 0 < max q02 (-100) then (0, min q98 600)
        else (max q02 (-100), min q98 600)) ∧
    (min q98 600 < max q02 (-100) →
      displayBounds q02 q98 =
        if 0 < max q02 (-100) then (0, max q02 (-100))
        else (max q02 (-100), max q02 (-100))) ∧
    displayBounds 5 40 = (0, 40) ∧
    displayBounds (-20) 30 = (-20, 30) ∧
    displayBounds 700 750 = (0, 700) := by
  refine ⟨?_, ?_, by norm_num [displayBounds, min_def, max_def],
    by norm_num [displayBounds, min_def, max_def],
    by norm_num [displayBounds, min_def, max_def]⟩
  · intro h
    simp only [displayBounds]
    rw [max_eq_left h, min_eq_right h]
  · intro h
    simp only [displayBounds]
    rw [max_eq_right (le_of_lt h), min_self]
    by_cases hp : 0 < max q02 (-100)
    · rw [if_pos ⟨hp, hp⟩, if_pos hp]
    · rw [if_neg (fun hc => hp hc.1), if_neg hp]

theorem display_bounds_amended_witness :
    displayBounds 700 750 = (0, 700) := by
  have h := (display_bounds_amended 700 750).2.1
    (by norm_num [min_def, max_def])
  rw [h]
  norm_num [max_def]

/-- Claim C1 counterexample: the TTM column comes from
rolling(window=4).sum(), whose minimum window population is four, not one,
and whose window is positional, not a 365 day date window: a lone quarter
gets a missing TTM value, while the claim demands that same quarter value
(which the spec shaped 365 day window would give). -/
theorem ttm_min_window_cex :
    ttmSeries [((0:ℤ), (1:ℚ))] = [(0, none)] ∧
    ttmSpec365 [((0:ℤ), (1:ℚ))] = [(0, 1)] := by
  constructor
  · rfl
  · simp [ttmSpec365]

/-- Claim C1 amended: the TTM column is a positional rolling sum over the
last four records: the entry at index i keeps the record date and holds the
sum of the values at indices i-3 through i when i is at least 3, and a
missing value for the first three records, record dates playing no role;
four consecutive quarters 0.50, 0.55, 0.60, 0.65 still give 2.30 at the
fourth record. -/
theorem ttm_positional_window :
    (∀ (xs : List (ℤ × ℚ)) (i : ℕ),
      (ttmSeries xs)[i]? = (xs[i]?).map (fun p =>
        (p.1, if 3 ≤ i
          then some ((((xs.map Prod.snd).take (i + 1)).drop (i - 3)).sum)
          else none))) ∧
    ttmSeries [((0:ℤ), (1/2:ℚ)), (90, 11/20), (180, 3/5), (270, 13/20)] =
      [(0, none), (90, none), (180, none), (270, some (23/10))] := by
  constructor
  · intro xs i
    by_cases hi : i < xs.length
    · have hv : i < (xs.map Prod.snd).length := by simpa using hi
      rw [List.getElem?_eq_getElem hi]
      dsimp only [Option.map]
      unfold ttmSeries
      apply List.getElem?_zip_eq_some.mpr
      constructor
      · simp [List.getElem?_eq_getElem hi]
      · by_cases h3 : 3 ≤ i
        · rw [if_pos h3]
          have hw := rolling4Aux_window (xs.map Prod.snd) [] i hv
            (by simp) (by simpa using h3)
          simpa using hw
        · rw [if_neg h3]
          have h3b : ([] : List ℚ).length + i < 3 := by
            simpa using Nat.lt_of_not_le h3
          exact rolling4Aux_warmup (xs.map Prod.snd) [] i hv h3b
    · have h1 : (ttmSeries xs).length ≤ i := by
        unfold ttmSeries
        rw [List.length_zip, List.length_map, rolling4Aux_length,
          List.length_map]
        omega
      rw [List.getElem?_eq_none h1, List.getElem?_eq_none (le_of_not_lt hi)]
      rfl
  · norm_num [ttmSeries, rolling4Aux, List.zip]

end AiAnalyst
